import Mathlib

/-!
Verification of the spectrusty emulator core against its specification.

The definitions below are shallow embeddings of the Rust sources:
machine integers become `Int`/`Nat` (with explicit wrap where the source
wraps), Rust `%` on nonnegative operands and `& (2^k - 1)` become `%`,
`rem_euclid` becomes `Int.emod` (Lean's `%` on `Int`), and the truncating
`/` of Rust's `i32` becomes `Int.tdiv`.  `while` loops become fueled
recursions with enough fuel proved for the relevant domains.
-/

namespace Spectrusty

/-! ## Video frame contention functions

From `src/chip/ula/video.rs` (`UlaVideoFrame::contention`) and
`src/chip/ula128/video.rs` (`Ula128VidFrame::contention`).
For `hc + 1 ≥ 0` (resp. `hc + 3 ≥ 0`) the source's `& 7` equals `% 8`.
-/

def UlaVideoFrame.contention (hc : Int) : Int :=
  if -1 ≤ hc ∧ hc < 125 then
    let ct := (hc + 1) % 8
    if ct < 6 then hc + 6 - ct else hc
  else hc

def Ula128VidFrame.contention (hc : Int) : Int :=
  if -3 ≤ hc ∧ hc < 123 then
    let ct := (hc + 3) % 8
    if ct < 6 then hc + 6 - ct else hc
  else hc

/-- C2 (counterexample): at `hc = 6`, inside the 48K contention window,
`(contention hc + 1) % 8 = 7`, not `6` as the claim requires for every
`hc` inside the window. -/
theorem contention_phase_mod8_cex :
    (-1 ≤ (6 : Int) ∧ (6 : Int) < 125) ∧
    (UlaVideoFrame.contention 6 + 1) % 8 ≠ 6 := by
  constructor
  · exact ⟨by norm_num, by norm_num⟩
  · decide

/-- C2 (amended): outside the window `contention hc = hc`; inside the
window the delay is in `{0,…,6}` and `(contention hc + phase) % 8 = 6`
except when `(hc + phase) % 8 = 7`, in which case the access is not
delayed at all (`contention hc = hc`).  Phase is 1 for the 48K frame
and 3 for the 128K frame. -/
theorem contention_window_spec (hc : Int) :
    (¬(-1 ≤ hc ∧ hc < 125) → UlaVideoFrame.contention hc = hc) ∧
    ((-1 ≤ hc ∧ hc < 125) →
      0 ≤ UlaVideoFrame.contention hc - hc ∧
      UlaVideoFrame.contention hc - hc ≤ 6 ∧
      ((UlaVideoFrame.contention hc + 1) % 8 = 6 ∨
        (UlaVideoFrame.contention hc = hc ∧ (hc + 1) % 8 = 7))) ∧
    (¬(-3 ≤ hc ∧ hc < 123) → Ula128VidFrame.contention hc = hc) ∧
    ((-3 ≤ hc ∧ hc < 123) →
      0 ≤ Ula128VidFrame.contention hc - hc ∧
      Ula128VidFrame.contention hc - hc ≤ 6 ∧
      ((Ula128VidFrame.contention hc + 3) % 8 = 6 ∨
        (Ula128VidFrame.contention hc = hc ∧ (hc + 3) % 8 = 7))) := by
  refine ⟨?_, ?_, ?_, ?_⟩
  · intro h
    unfold UlaVideoFrame.contention
    rw [if_neg h]
  · intro h
    unfold UlaVideoFrame.contention
    rw [if_pos h]
    simp only
    split
    · omega
    · omega
  · intro h
    unfold Ula128VidFrame.contention
    rw [if_neg h]
  · intro h
    unfold Ula128VidFrame.contention
    rw [if_pos h]
    simp only
    split
    · omega
    · omega

/-- C2 amended witness at concrete inputs: `hc = 200` is outside the 48K
window and left unchanged; `hc = 0` is inside and delayed to the slot
boundary. -/
theorem contention_window_spec_witness :
    (¬(-1 ≤ (200 : Int) ∧ (200 : Int) < 125) ∧
      UlaVideoFrame.contention 200 = 200) ∧
    ((-1 ≤ (0 : Int) ∧ (0 : Int) < 125) ∧
      0 ≤ UlaVideoFrame.contention 0 - 0 ∧
      UlaVideoFrame.contention 0 - 0 ≤ 6 ∧
      ((UlaVideoFrame.contention 0 + 1) % 8 = 6 ∨
        (UlaVideoFrame.contention 0 = 0 ∧ ((0 : Int) + 1) % 8 = 7))) :=
  ⟨⟨by decide, (contention_window_spec 200).1 (by decide)⟩,
   ⟨⟨by decide, by decide⟩, (contention_window_spec 0).2.1 ⟨by decide, by decide⟩⟩⟩

/-! ## Halted-state fast forward (src/chip/ula.rs:351, `execute_halted_state_until_eof`)

Instantiated for the 48K frame (`UlaVideoFrame`): `HTS_RANGE = -69..155`,
`HTS_COUNT = 224`, `VSL_PIXELS = 64..256`, `VSL_COUNT = 312`, and
`M1_CYCLE_TS = 4`.  The boolean `c` stands for
`M::is_contended_address(cpu.get_pc())`, the only fact about the program
counter the source consults, so quantifying over `c` covers every `pc`.
-/

/-- Fueled embedding of the source's
`while hc < V::HTS_RANGE.end { hc = V::contention(hc) + M1_CYCLE_TS; n += 1 }`
loop; returns the final `hc` and the iteration count.  The fuel `100`
used by `lineLoop` is proved sufficient for every start `hc ≥ -69`. -/
def lineLoopF : Nat → Int → Int × Nat
  | 0, hc => (hc, 0)
  | n+1, hc =>
    if hc < 155 then
      let p := lineLoopF n (UlaVideoFrame.contention hc + 4)
      (p.1, p.2 + 1)
    else (hc, 0)

def lineLoop (hc : Int) : Int × Nat := lineLoopF 100 hc

/-- The `// contended area` block of `execute_halted_state_until_eof`:
given the `(vc, hc, r_incr)` state after the first (current-line or
top-border) part, runs the per-line loop once and multiplies by the
number of remaining pixel lines. -/
def ff1Inner (u : Int × Int × Int) : Int × Int × Int :=
  if u.1 < 256 then
    (256, (lineLoop u.2.1).1 - 224,
      u.2.2 + (256 - u.1) * ((lineLoop u.2.1).2 : Int))
  else (256, u.2.1, u.2.2)

/-- The contended branch of `execute_halted_state_until_eof` up to the
`// bottom border` write-back: returns `(tsc.vc, tsc.hc, r_incr)` as they
stand just before the final division.  Rust's `rem_euclid` is `Int.emod`
and the truncating `/` is `Int.tdiv`. -/
def haltFastForward1 (c : Bool) (vc hc : Int) : Int × Int × Int :=
  if c ∧ vc < 256 then
    ff1Inner
      (if vc < 64 then
        (64, 155 + (hc - 155) % 4 - 224,
          ((64 - (vc + 1)) * 224 + (155 + (hc - 155) % 4 - hc)).tdiv 4)
      else
        (vc + 1, (lineLoop hc).1 - 224, ((lineLoop hc).2 : Int)))
  else (vc, hc, 0)

/-- `execute_halted_state_until_eof` for the 48K frame: returns the final
`(tsc.vc, tsc.hc)` and the computed `r_incr` (the source adds the latter
to the CPU R register when it is nonnegative and panics otherwise). -/
def executeHaltedStateUntilEof (c : Bool) (vc hc : Int) : Int × Int × Int :=
  let t := haltFastForward1 c vc hc
  (312, t.2.1 % 4,
    t.2.2 + ((312 - t.1) * 224 + (t.2.1 % 4 - t.2.1)).tdiv 4)

/-- Horizontal counter advance with end-of-line carry into `vc`
(normalization into `HTS_RANGE = -69..155`). -/
def m1Wrap (vc hc2 : Int) : Int × Int :=
  if 155 ≤ hc2 then (vc + 1, hc2 - 224) else (vc, hc2)

/-- Modelled from the spec: one M1 cycle (`M1_CYCLE_TS = 4` T-states) of a
halted Z80 stepped through the normal execution path.  Per §4.6, a fetch
at a contended `pc` while the scan line is within `VSL_PIXELS = 64..256`
first advances `hc` via `contention`; the cycle then takes 4 T-states and
the timestamp is renormalized.  The z80emu CPU engine itself is outside
this repository. -/
def haltStep (c : Bool) (vc hc : Int) : Int × Int :=
  m1Wrap vc ((if c ∧ 64 ≤ vc ∧ vc < 256 then UlaVideoFrame.contention hc else hc) + 4)

/-- Modelled from the spec: the halted CPU stepped through individual M1
cycles until the end of frame, counting R increments.  Mirroring the
source's own reference test (src/chip/ula.rs:444-464), stepping continues
past the `vc = VSL_COUNT` boundary while `hc < 0`. -/
def runHalted (c : Bool) : Nat → Int → Int → Nat → Int × Int × Nat
  | 0, vc, hc, r => (vc, hc, r)
  | n+1, vc, hc, r =>
    if 312 ≤ vc ∧ 0 ≤ hc then (vc, hc, r)
    else runHalted c n (haltStep c vc hc).1 (haltStep c vc hc).2 (r + 1)

lemma contention48_ge (hc : Int) : hc ≤ UlaVideoFrame.contention hc := by
  unfold UlaVideoFrame.contention
  split
  · simp only
    split <;> omega
  · omega

lemma contention48_ub (hc : Int) (h : hc < 155) :
    UlaVideoFrame.contention hc ≤ 154 := by
  unfold UlaVideoFrame.contention
  split
  · simp only
    split <;> omega
  · omega

set_option maxRecDepth 400000 in
lemma lineLoop_decide : ∀ k : Nat, k < 224 →
    155 ≤ (lineLoopF 99 (-69 + (k : Int))).1 ∧
    (lineLoopF 99 (-69 + (k : Int))).1 < 159 ∧
    lineLoopF 100 (-69 + (k : Int)) = lineLoopF 99 (-69 + (k : Int)) := by
  decide

set_option maxRecDepth 400000 in
lemma lineLoop_low_decide : ∀ k : Nat, k < 4 →
    lineLoopF 100 (-69 + (k : Int)) = (157, 40) := by
  decide

lemma lineLoopF_done (n : Nat) (hc : Int) (h : 155 ≤ hc) :
    lineLoopF n hc = (hc, 0) := by
  cases n with
  | zero => rfl
  | succ n => simp only [lineLoopF, if_neg (by omega : ¬hc < 155)]

lemma lineLoop_done (hc : Int) (h : 155 ≤ hc) : lineLoop hc = (hc, 0) :=
  lineLoopF_done 100 hc h

lemma lineLoop_eq99 (hc : Int) (h : -69 ≤ hc) : lineLoop hc = lineLoopF 99 hc := by
  rcases lt_or_le hc 155 with h2 | h2
  · have h3 := (lineLoop_decide (hc + 69).toNat (by omega)).2.2
    rw [show -69 + (((hc + 69).toNat : Nat) : Int) = hc by omega] at h3
    exact h3
  · rw [lineLoop_done hc h2, lineLoopF_done 99 hc h2]

lemma lineLoop_bounds (hc : Int) (h1 : -69 ≤ hc) (h2 : hc < 155) :
    155 ≤ (lineLoop hc).1 ∧ (lineLoop hc).1 < 159 := by
  have h3 := lineLoop_decide (hc + 69).toNat (by omega)
  rw [show -69 + (((hc + 69).toNat : Nat) : Int) = hc by omega] at h3
  rw [lineLoop_eq99 hc h1]
  exact ⟨h3.1, h3.2.1⟩

lemma lineLoop_low (hc : Int) (h1 : -69 ≤ hc) (h2 : hc < -65) :
    lineLoop hc = (157, 40) := by
  have h3 := lineLoop_low_decide (hc + 69).toNat (by omega)
  rw [show -69 + (((hc + 69).toNat : Nat) : Int) = hc by omega] at h3
  exact h3

lemma lineLoop_unfold (hc : Int) (h1 : -69 ≤ hc) (h2 : hc < 155) :
    lineLoop hc = ((lineLoop (UlaVideoFrame.contention hc + 4)).1,
                   (lineLoop (UlaVideoFrame.contention hc + 4)).2 + 1) := by
  have harg : -69 ≤ UlaVideoFrame.contention hc + 4 := by
    have := contention48_ge hc; omega
  show lineLoopF (99 + 1) hc = _
  rw [lineLoopF, if_pos h2]
  show ((lineLoopF 99 (UlaVideoFrame.contention hc + 4)).1,
        (lineLoopF 99 (UlaVideoFrame.contention hc + 4)).2 + 1) = _
  rw [← lineLoop_eq99 _ harg]

lemma tail_tdiv (vc hc : Int) :
    ((312 - vc) * 224 + (hc % 4 - hc)).tdiv 4 = (312 - vc) * 56 - hc / 4 := by
  have h4 : (312 - vc) * 224 + (hc % 4 - hc)
      = 4 * ((312 - vc) * 56 - hc / 4) := by omega
  rw [h4, Int.mul_tdiv_cancel_left _ (by norm_num)]

lemma top_tdiv (vc hc : Int) :
    ((64 - (vc + 1)) * 224 + (155 + (hc - 155) % 4 - hc)).tdiv 4
      = (63 - vc) * 56 - (hc - 155) / 4 := by
  have h4 : (64 - (vc + 1)) * 224 + (155 + (hc - 155) % 4 - hc)
      = 4 * ((63 - vc) * 56 - (hc - 155) / 4) := by omega
  rw [h4, Int.mul_tdiv_cancel_left _ (by norm_num)]

lemma ff_eval (c : Bool) (vc hc : Int) :
    executeHaltedStateUntilEof c vc hc
      = (312, (haltFastForward1 c vc hc).2.1 % 4,
         (haltFastForward1 c vc hc).2.2
           + ((312 - (haltFastForward1 c vc hc).1) * 56
              - (haltFastForward1 c vc hc).2.1 / 4)) := by
  show (312, (haltFastForward1 c vc hc).2.1 % 4,
        (haltFastForward1 c vc hc).2.2
          + ((312 - (haltFastForward1 c vc hc).1) * 224
             + ((haltFastForward1 c vc hc).2.1 % 4
                - (haltFastForward1 c vc hc).2.1)).tdiv 4) = _
  rw [tail_tdiv]

lemma ff1_not (c : Bool) (vc hc : Int) (h : ¬(c = true ∧ vc < 256)) :
    haltFastForward1 c vc hc = (vc, hc, 0) := by
  unfold haltFastForward1
  rw [if_neg h]

lemma ff1_top (vc hc : Int) (h64 : vc < 64) (h1 : -69 ≤ hc) (h2 : hc < 155) :
    haltFastForward1 true vc hc
      = (256, -67, (63 - vc) * 56 - (hc - 155) / 4 + 7680) := by
  unfold haltFastForward1
  rw [if_pos ⟨rfl, by omega⟩, if_pos h64]
  unfold ff1Inner
  simp only
  rw [if_pos (by norm_num : (64 : Int) < 256)]
  rw [lineLoop_low (155 + (hc - 155) % 4 - 224) (by omega) (by omega)]
  rw [top_tdiv]
  norm_num

lemma ff1_mid_lt (vc hc : Int) (hl : 64 ≤ vc) (hu : vc < 255)
    (h1 : -69 ≤ hc) (h2 : hc < 155) :
    haltFastForward1 true vc hc
      = (256, -67, ((lineLoop hc).2 : Int) + (255 - vc) * 40) := by
  unfold haltFastForward1
  rw [if_pos ⟨rfl, by omega⟩, if_neg (by omega : ¬vc < 64)]
  unfold ff1Inner
  simp only
  rw [if_pos (by omega : vc + 1 < 256)]
  have hb := lineLoop_bounds hc h1 h2
  rw [lineLoop_low ((lineLoop hc).1 - 224) (by omega) (by omega)]
  simp only
  rw [show (256 : Int) - (vc + 1) = 255 - vc by ring]
  norm_num

lemma ff1_mid_eq (hc : Int) :
    haltFastForward1 true 255 hc
      = (256, (lineLoop hc).1 - 224, ((lineLoop hc).2 : Int)) := by
  unfold haltFastForward1
  rw [if_pos ⟨rfl, by norm_num⟩, if_neg (by norm_num : ¬(255 : Int) < 64)]
  unfold ff1Inner
  simp only
  rw [if_neg (by norm_num : ¬(255 : Int) + 1 < 256)]

lemma haltStep_uncontended (c : Bool) (vc hc : Int)
    (h : ¬(c = true ∧ 64 ≤ vc ∧ vc < 256)) :
    haltStep c vc hc = m1Wrap vc (hc + 4) := by
  unfold haltStep
  rw [if_neg h]

lemma haltStep_contended (vc hc : Int) (h1 : 64 ≤ vc) (h2 : vc < 256) :
    haltStep true vc hc = m1Wrap vc (UlaVideoFrame.contention hc + 4) := by
  unfold haltStep
  rw [if_pos ⟨rfl, h1, h2⟩]

lemma m1Wrap_hi (vc hc2 : Int) (h : 155 ≤ hc2) :
    m1Wrap vc hc2 = (vc + 1, hc2 - 224) := by
  unfold m1Wrap; rw [if_pos h]

lemma m1Wrap_lo (vc hc2 : Int) (h : hc2 < 155) :
    m1Wrap vc hc2 = (vc, hc2) := by
  unfold m1Wrap; rw [if_neg (by omega)]

/-- One normal-path M1 cycle leaves the fast-forward's final `hc`
unchanged and decreases its computed R increment by exactly one. -/
lemma step_commut (c : Bool) (vc hc : Int)
    (h1 : -69 ≤ hc) (h2 : hc < 155) (h3 : 0 ≤ vc) (h4 : vc ≤ 312)
    (h5 : vc = 312 → hc < 4)
    (hnd : ¬(312 ≤ vc ∧ 0 ≤ hc)) :
    (executeHaltedStateUntilEof c (haltStep c vc hc).1 (haltStep c vc hc).2).2.1
        = (executeHaltedStateUntilEof c vc hc).2.1 ∧
    (executeHaltedStateUntilEof c vc hc).2.2
        = (executeHaltedStateUntilEof c (haltStep c vc hc).1 (haltStep c vc hc).2).2.2
          + 1 := by
  by_cases hcc : c = true ∧ vc < 256
  · obtain ⟨hct, hvlt⟩ := hcc
    subst hct
    by_cases h64 : vc < 64
    · -- top border: the step itself is uncontended
      have hstep := haltStep_uncontended true vc hc (by omega)
      by_cases hwrap : 155 ≤ hc + 4
      · rw [m1Wrap_hi vc (hc + 4) hwrap] at hstep
        have hs1 : (haltStep true vc hc).1 = vc + 1 := by rw [hstep]
        have hs2 : (haltStep true vc hc).2 = hc + 4 - 224 := by rw [hstep]
        by_cases h63 : vc + 1 < 64
        · rw [hs1, hs2, ff_eval, ff_eval, ff1_top vc hc h64 h1 h2,
              ff1_top (vc + 1) (hc + 4 - 224) h63 (by omega) (by omega)]
          constructor <;> (try dsimp only) <;> (try push_cast) <;> (try omega)
        · have hv63 : vc = 63 := by omega
          subst hv63
          rw [hs1, hs2, ff_eval, ff_eval, ff1_top 63 hc h64 h1 h2,
              ff1_mid_lt (63 + 1) (hc + 4 - 224) (by norm_num) (by norm_num)
                (by omega) (by omega),
              lineLoop_low (hc + 4 - 224) (by omega) (by omega)]
          constructor <;> (try dsimp only) <;> (try push_cast) <;> (try omega)
      · rw [m1Wrap_lo vc (hc + 4) (by omega)] at hstep
        have hs1 : (haltStep true vc hc).1 = vc := by rw [hstep]
        have hs2 : (haltStep true vc hc).2 = hc + 4 := by rw [hstep]
        rw [hs1, hs2, ff_eval, ff_eval, ff1_top vc hc h64 h1 h2,
            ff1_top vc (hc + 4) h64 (by omega) (by omega)]
        constructor <;> (try dsimp only) <;> (try push_cast) <;> (try omega)
    · -- contended pixel lines
      have hstep := haltStep_contended vc hc (by omega) hvlt
      have hge := contention48_ge hc
      have hub := contention48_ub hc h2
      by_cases hwrap : 155 ≤ UlaVideoFrame.contention hc + 4
      · have hLL : lineLoop hc = (UlaVideoFrame.contention hc + 4, 1) := by
          rw [lineLoop_unfold hc h1 h2, lineLoop_done _ hwrap]
        rw [m1Wrap_hi _ _ hwrap] at hstep
        have hs1 : (haltStep true vc hc).1 = vc + 1 := by rw [hstep]
        have hs2 : (haltStep true vc hc).2
            = UlaVideoFrame.contention hc + 4 - 224 := by rw [hstep]
        by_cases hv255 : vc < 255
        · by_cases hv254 : vc + 1 < 255
          · rw [hs1, hs2, ff_eval, ff_eval,
                ff1_mid_lt vc hc (by omega) hv255 h1 h2,
                ff1_mid_lt (vc + 1) (UlaVideoFrame.contention hc + 4 - 224)
                  (by omega) hv254 (by omega) (by omega),
                lineLoop_low (UlaVideoFrame.contention hc + 4 - 224)
                  (by omega) (by omega), hLL]
            constructor <;> (try dsimp only) <;> (try push_cast) <;> (try omega)
          · have hv : vc = 254 := by omega
            subst hv
            rw [hs1, hs2, ff_eval, ff_eval,
                ff1_mid_lt 254 hc (by norm_num) (by norm_num) h1 h2,
                show (254 : Int) + 1 = 255 by norm_num,
                ff1_mid_eq (UlaVideoFrame.contention hc + 4 - 224),
                lineLoop_low (UlaVideoFrame.contention hc + 4 - 224)
                  (by omega) (by omega), hLL]
            constructor <;> (try dsimp only) <;> (try push_cast) <;> (try omega)
        · have hv : vc = 255 := by omega
          subst hv
          rw [hs1, hs2, ff_eval, ff_eval, ff1_mid_eq hc, hLL,
              ff1_not true (255 + 1) (UlaVideoFrame.contention hc + 4 - 224)
                (by norm_num)]
          constructor <;> (try dsimp only) <;> (try push_cast) <;> (try omega)
      · have hLL : lineLoop hc
            = ((lineLoop (UlaVideoFrame.contention hc + 4)).1,
               (lineLoop (UlaVideoFrame.contention hc + 4)).2 + 1) :=
          lineLoop_unfold hc h1 h2
        rw [m1Wrap_lo _ _ (by omega)] at hstep
        have hs1 : (haltStep true vc hc).1 = vc := by rw [hstep]
        have hs2 : (haltStep true vc hc).2
            = UlaVideoFrame.contention hc + 4 := by rw [hstep]
        by_cases hv255 : vc < 255
        · rw [hs1, hs2, ff_eval, ff_eval,
              ff1_mid_lt vc hc (by omega) hv255 h1 h2,
              ff1_mid_lt vc (UlaVideoFrame.contention hc + 4) (by omega) hv255
                (by omega) (by omega), hLL]
          constructor <;> (try dsimp only) <;> (try push_cast) <;> (try omega)
        · have hv : vc = 255 := by omega
          subst hv
          rw [hs1, hs2, ff_eval, ff_eval, ff1_mid_eq hc,
              ff1_mid_eq (UlaVideoFrame.contention hc + 4), hLL]
          constructor <;> (try dsimp only) <;> (try push_cast) <;> (try omega)
  · -- pc not contended, or already past the pixel area
    have hstep := haltStep_uncontended c vc hc (fun hx => hcc ⟨hx.1, by omega⟩)
    by_cases hwrap : 155 ≤ hc + 4
    · rw [m1Wrap_hi _ _ hwrap] at hstep
      have hs1 : (haltStep c vc hc).1 = vc + 1 := by rw [hstep]
      have hs2 : (haltStep c vc hc).2 = hc + 4 - 224 := by rw [hstep]
      rw [hs1, hs2, ff_eval, ff_eval, ff1_not c vc hc hcc,
          ff1_not c (vc + 1) (hc + 4 - 224) (fun hx => hcc ⟨hx.1, by omega⟩)]
      constructor <;> (try dsimp only) <;> (try push_cast) <;> (try omega)
    · rw [m1Wrap_lo _ _ (by omega)] at hstep
      have hs1 : (haltStep c vc hc).1 = vc := by rw [hstep]
      have hs2 : (haltStep c vc hc).2 = hc + 4 := by rw [hstep]
      rw [hs1, hs2, ff_eval, ff_eval, ff1_not c vc hc hcc,
          ff1_not c vc (hc + 4) (fun hx => hcc ⟨hx.1, hx.2⟩)]
      constructor <;> (try dsimp only) <;> (try push_cast) <;> (try omega)

/-- A normal-path M1 cycle preserves the timestamp invariants and strictly
advances the flat T-state position by at least 4. -/
lemma haltStep_valid (c : Bool) (vc hc : Int)
    (h1 : -69 ≤ hc) (h2 : hc < 155) (h3 : 0 ≤ vc) (h4 : vc ≤ 312)
    (h5 : vc = 312 → hc < 4)
    (hnd : ¬(312 ≤ vc ∧ 0 ≤ hc)) :
    -69 ≤ (haltStep c vc hc).2 ∧ (haltStep c vc hc).2 < 155 ∧
    0 ≤ (haltStep c vc hc).1 ∧ (haltStep c vc hc).1 ≤ 312 ∧
    ((haltStep c vc hc).1 = 312 → (haltStep c vc hc).2 < 4) ∧
    (312 - (haltStep c vc hc).1) * 224 + 155 - (haltStep c vc hc).2
      ≤ (312 - vc) * 224 + 155 - hc - 4 := by
  have hge := contention48_ge hc
  have hub := contention48_ub hc h2
  unfold haltStep m1Wrap
  by_cases hcc : c = true ∧ 64 ≤ vc ∧ vc < 256
  · rw [if_pos hcc]
    split
    · dsimp only
      omega
    · dsimp only
      omega
  · rw [if_neg hcc]
    split
    · dsimp only
      omega
    · dsimp only
      omega

/-- Main invariant: from any normalized position within the frame and with
sufficient fuel, stepping the halted CPU cycle by cycle reaches the exact
final position computed by the fast forward, with an R-increment count
equal to the fast forward's (nonnegative) `r_incr`. -/
lemma run_eq_ff : ∀ n : Nat, ∀ c : Bool, ∀ vc hc : Int, ∀ r0 : Nat,
    -69 ≤ hc → hc < 155 → 0 ≤ vc → vc ≤ 312 → (vc = 312 → hc < 4) →
    ((312 - vc) * 224 + 155 - hc).toNat ≤ n →
    0 ≤ (executeHaltedStateUntilEof c vc hc).2.2 ∧
    runHalted c n vc hc r0
      = (312, (executeHaltedStateUntilEof c vc hc).2.1,
         r0 + (executeHaltedStateUntilEof c vc hc).2.2.toNat) := by
  intro n
  induction n with
  | zero =>
    intro c vc hc r0 h1 h2 h3 h4 h5 hfuel
    exfalso
    omega
  | succ n ih =>
    intro c vc hc r0 h1 h2 h3 h4 h5 hfuel
    by_cases hdone : 312 ≤ vc ∧ 0 ≤ hc
    · have hvc : vc = 312 := by omega
      subst hvc
      have hhc : 0 ≤ hc ∧ hc < 4 := ⟨hdone.2, h5 rfl⟩
      have hff : executeHaltedStateUntilEof c 312 hc = (312, hc, 0) := by
        rw [ff_eval, ff1_not c 312 hc (fun hx => by omega)]
        dsimp only
        have hm : hc % 4 = hc := by omega
        have hd : hc / 4 = 0 := by omega
        rw [hm, hd]
        norm_num
      rw [hff]
      constructor
      · norm_num
      · show runHalted c (n + 1) 312 hc r0 = _
        rw [runHalted, if_pos hdone]
        norm_num
    · have hrun : runHalted c (n + 1) vc hc r0
          = runHalted c n (haltStep c vc hc).1 (haltStep c vc hc).2 (r0 + 1) := by
        rw [runHalted, if_neg hdone]
      have hv := haltStep_valid c vc hc h1 h2 h3 h4 h5 hdone
      have hc' := step_commut c vc hc h1 h2 h3 h4 h5 hdone
      have ihr := ih c (haltStep c vc hc).1 (haltStep c vc hc).2 (r0 + 1)
        hv.1 hv.2.1 hv.2.2.1 hv.2.2.2.1 hv.2.2.2.2.1 (by omega)
      refine ⟨by omega, ?_⟩
      rw [hrun, ihr.2, hc'.1]
      have hnn := ihr.1
      have := hc'.2
      congr 2
      omega

/-- C1: for every program-counter contention status and every normalized
in-frame start `(vc, hc)` (`0 ≤ vc < VSL_COUNT`, `hc ∈ HTS_RANGE`),
fast-forwarding the halted CPU to the end of frame via
`execute_halted_state_until_eof` produces exactly the same final
timestamp and the same count of R-register increments as stepping the
halted CPU through individual M1 cycles along the normal execution
path. -/
theorem halted_fast_forward_equiv (c : Bool) (vc hc : Int)
    (hvl : 0 ≤ vc) (hvu : vc < 312) (hhl : -69 ≤ hc) (hhu : hc < 155) :
    runHalted c 70200 vc hc 0
      = ((executeHaltedStateUntilEof c vc hc).1,
         (executeHaltedStateUntilEof c vc hc).2.1,
         (executeHaltedStateUntilEof c vc hc).2.2.toNat) := by
  have hfst : (executeHaltedStateUntilEof c vc hc).1 = 312 := by
    rw [ff_eval]
  have h := run_eq_ff 70200 c vc hc 0 hhl hhu hvl (by omega) (by omega)
    (by omega)
  rw [h.2, hfst]
  norm_num

/-- C1 witness: the equivalence instantiated at the start of the frame
with a contended program counter. -/
theorem halted_fast_forward_equiv_witness :
    ((0 : Int) ≤ 0 ∧ (0 : Int) < 312 ∧ (-69 : Int) ≤ -69 ∧ (-69 : Int) < 155) ∧
    runHalted true 70200 0 (-69) 0
      = ((executeHaltedStateUntilEof true 0 (-69)).1,
         (executeHaltedStateUntilEof true 0 (-69)).2.1,
         (executeHaltedStateUntilEof true 0 (-69)).2.2.toNat) :=
  ⟨⟨le_refl _, by norm_num, le_refl _, by norm_num⟩,
   halted_fast_forward_equiv true 0 (-69) (le_refl _) (by norm_num)
     (le_refl _) (by norm_num)⟩

/-- C9: for every normalized, non-end-of-frame input, the R increment
computed by `execute_halted_state_until_eof` is nonnegative (so the
source's `unreachable!()` branch is never taken), and the returned
timestamp satisfies `vc = VSL_COUNT` and `0 ≤ hc < M1_CYCLE_TS`. -/
theorem halted_fast_forward_safety (c : Bool) (vc hc : Int)
    (hvl : 0 ≤ vc) (hvu : vc < 312) (hhl : -69 ≤ hc) (hhu : hc < 155) :
    0 ≤ (executeHaltedStateUntilEof c vc hc).2.2 ∧
    (executeHaltedStateUntilEof c vc hc).1 = 312 ∧
    0 ≤ (executeHaltedStateUntilEof c vc hc).2.1 ∧
    (executeHaltedStateUntilEof c vc hc).2.1 < 4 := by
  have h := run_eq_ff ((312 - vc) * 224 + 155 - hc).toNat c vc hc 0 hhl hhu hvl
    (by omega) (by omega) (le_refl _)
  refine ⟨h.1, by rw [ff_eval], ?_, ?_⟩
  · rw [ff_eval]
    dsimp only
    omega
  · rw [ff_eval]
    dsimp only
    omega

/-- C9 witness: safety at the start of the frame with a contended pc. -/
theorem halted_fast_forward_safety_witness :
    ((0 : Int) ≤ 0 ∧ (0 : Int) < 312 ∧ (-69 : Int) ≤ -69 ∧ (-69 : Int) < 155) ∧
    0 ≤ (executeHaltedStateUntilEof true 0 (-69)).2.2 ∧
    (executeHaltedStateUntilEof true 0 (-69)).1 = 312 ∧
    0 ≤ (executeHaltedStateUntilEof true 0 (-69)).2.1 ∧
    (executeHaltedStateUntilEof true 0 (-69)).2.1 < 4 :=
  ⟨⟨le_refl _, by norm_num, le_refl _, by norm_num⟩,
   halted_fast_forward_safety true 0 (-69) (le_refl _) (by norm_num)
     (le_refl _) (by norm_num)⟩

/-! ## AY-3-891x sound generator state machines (src/audio/ay.rs)

`u8`/`u16` fields become `Nat`; `wrapping_add`/`wrapping_sub` become
explicit `% 256` / `% 65536`; `& mask` becomes `&&&`. -/

def ENV_SHAPE_CONT_MASK : Nat := 0x08
def ENV_SHAPE_ATTACK_MASK : Nat := 0x04
def ENV_SHAPE_ALT_MASK : Nat := 0x02
def ENV_SHAPE_HOLD_MASK : Nat := 0x01
def ENV_LEVEL_REV_MASK : Nat := 0x80
def ENV_LEVEL_MOD_MASK : Nat := 0x40
def ENV_LEVEL_MASK : Nat := 0x0F
def ENV_CYCLE_MASK : Nat := 0xF0

structure EnvelopeControl where
  period : Nat
  tick : Nat
  cycle : Nat
  level : Nat
deriving DecidableEq

/-- `EnvelopeControl::set_shape` (ay.rs:133). `!ENV_CYCLE_MASK` on `u8`
is `0x0F`. -/
def EnvelopeControl.setShape (shape : Nat) (e : EnvelopeControl) : EnvelopeControl :=
  { e with
    tick := 0,
    cycle := shape &&& 0x0F,
    level :=
      if shape &&& ENV_SHAPE_ATTACK_MASK ≠ 0 then ENV_LEVEL_MOD_MASK
      else ENV_LEVEL_MOD_MASK ||| ENV_LEVEL_REV_MASK ||| ENV_LEVEL_MASK }

/-- `EnvelopeControl::set_period` (ay.rs:153). -/
def EnvelopeControl.setPeriod (p : Nat) (e : EnvelopeControl) : EnvelopeControl :=
  let period := if p = 0 then 1 else p
  { e with
    period := period,
    tick := if period ≤ e.tick then e.tick % period else e.tick }

/-- `EnvelopeControl::update_level` (ay.rs:161): returns the 4-bit level
and the successor state.  `!ENV_LEVEL_MASK` on `u8` is `0xF0 = 255 - 15`. -/
def EnvelopeControl.updateLevel (e : EnvelopeControl) : Nat × EnvelopeControl :=
  if e.period ≤ e.tick then
    let tick := e.tick - e.period
    if e.level &&& ENV_LEVEL_MOD_MASK ≠ 0 then
      let stepped :=
        if e.level &&& ENV_LEVEL_REV_MASK = 0 then (e.level + 1) % 256
        else (e.level + 255) % 256
      let level1 := (e.level &&& (255 - ENV_LEVEL_MASK)) ||| (stepped &&& ENV_LEVEL_MASK)
      let cycle := (e.cycle + 0x10) % 256
      let level2 :=
        if cycle &&& ENV_CYCLE_MASK = 0 then
          if cycle &&& ENV_SHAPE_CONT_MASK = 0 then 0
          else if cycle &&& ENV_SHAPE_HOLD_MASK ≠ 0 then
            if cycle &&& ENV_SHAPE_ALT_MASK = 0 then
              level1 ^^^ (ENV_LEVEL_MOD_MASK ||| ENV_LEVEL_MASK)
            else level1 ^^^ ENV_LEVEL_MOD_MASK
          else if cycle &&& ENV_SHAPE_ALT_MASK ≠ 0 then
            level1 ^^^ (ENV_LEVEL_REV_MASK ||| ENV_LEVEL_MASK)
          else level1
        else level1
      (level2 &&& ENV_LEVEL_MASK,
        { e with tick := (tick + 1) % 65536, cycle := cycle, level := level2 })
    else
      (e.level &&& ENV_LEVEL_MASK, { e with tick := (tick + 1) % 65536 })
  else
    (e.level &&& ENV_LEVEL_MASK, { e with tick := (e.tick + 1) % 65536 })

/-- State after `n` calls of `update_level`. -/
def envIter (e : EnvelopeControl) : Nat → EnvelopeControl
  | 0 => e
  | n + 1 => ((envIter e n).updateLevel).2

/-- Return value of the `(n+1)`-th `update_level` call. -/
def envOut (e : EnvelopeControl) (n : Nat) : Nat := ((envIter e n).updateLevel).1

/-- Envelope with `period = 1` (the default) after `set_shape(0)`. -/
def envDecay : EnvelopeControl := EnvelopeControl.setShape 0 ⟨1, 0, 0, 0⟩

/-- Envelope with `period = 1` after `set_shape(CONT|ATTACK|HOLD)`. -/
def envAttackHold : EnvelopeControl :=
  EnvelopeControl.setShape
    (ENV_SHAPE_CONT_MASK ||| ENV_SHAPE_ATTACK_MASK ||| ENV_SHAPE_HOLD_MASK) ⟨1, 0, 0, 0⟩

/-- Envelope with `period = 1` after `set_shape(CONT|ATTACK|ALT)`. -/
def envAttackAlt : EnvelopeControl :=
  EnvelopeControl.setShape
    (ENV_SHAPE_CONT_MASK ||| ENV_SHAPE_ATTACK_MASK ||| ENV_SHAPE_ALT_MASK) ⟨1, 0, 0, 0⟩

lemma envIter_add (e : EnvelopeControl) (m : Nat) :
    ∀ k : Nat, envIter e (m + k) = envIter (envIter e m) k := by
  intro k
  induction k with
  | zero => rfl
  | succ k ih =>
    show ((envIter e (m + k)).updateLevel).2 = ((envIter (envIter e m) k).updateLevel).2
    rw [ih]

lemma envOut_from_fix (e : EnvelopeControl) (N : Nat) (v : Nat)
    (h : (envIter e N).updateLevel = (v, envIter e N)) :
    ∀ k : Nat, envOut e (N + k) = v := by
  have hiter : ∀ k : Nat, envIter e (N + k) = envIter e N := by
    intro k
    induction k with
    | zero => rfl
    | succ k ih =>
      show ((envIter e (N + k)).updateLevel).2 = _
      rw [ih, h]
  intro k
  unfold envOut
  rw [hiter k, h]

set_option maxRecDepth 40000 in
lemma envDecay_small : ∀ n : Nat, n < 17 →
    envOut envDecay n = if n < 16 then 15 - n else 0 := by decide

set_option maxRecDepth 40000 in
lemma envDecay_fix :
    (envIter envDecay 17).updateLevel = (0, envIter envDecay 17) := by decide

set_option maxRecDepth 40000 in
lemma envAttackHold_small : ∀ n : Nat, n < 17 →
    envOut envAttackHold n = if n < 16 then n else 15 := by decide

set_option maxRecDepth 40000 in
lemma envAttackHold_fix :
    (envIter envAttackHold 17).updateLevel = (15, envIter envAttackHold 17) := by
  decide

set_option maxRecDepth 40000 in
lemma envAttackAlt_small : ∀ n : Nat, n < 33 →
    envOut envAttackAlt n = if n % 32 < 16 then n % 32 else 31 - n % 32 := by
  decide

set_option maxRecDepth 40000 in
lemma envAttackAlt_periodic :
    envIter envAttackAlt 33 = envIter envAttackAlt 1 := by decide

/-- C4: with `period = 1`, the envelope produces 15,14,…,0 then 0 forever
after `set_shape(0)`; 0,…,15 then 15 forever after
`set_shape(CONT|ATTACK|HOLD)`; and the repeating triangle 0..15, 15..0
after `set_shape(CONT|ATTACK|ALT)`. -/
theorem ay_envelope_shapes :
    (∀ n : Nat, envOut envDecay n = if n < 16 then 15 - n else 0) ∧
    (∀ n : Nat, envOut envAttackHold n = if n < 16 then n else 15) ∧
    (∀ n : Nat, envOut envAttackAlt n
      = if n % 32 < 16 then n % 32 else 31 - n % 32) := by
  refine ⟨?_, ?_, ?_⟩
  · intro n
    rcases lt_or_le n 17 with hn | hn
    · exact envDecay_small n hn
    · have h := envOut_from_fix envDecay 17 0 envDecay_fix (n - 17)
      rw [show 17 + (n - 17) = n by omega] at h
      rw [h, if_neg (by omega)]
  · intro n
    rcases lt_or_le n 17 with hn | hn
    · exact envAttackHold_small n hn
    · have h := envOut_from_fix envAttackHold 17 15 envAttackHold_fix (n - 17)
      rw [show 17 + (n - 17) = n by omega] at h
      rw [h, if_neg (by omega)]
  · intro n
    induction n using Nat.strong_induction_on with
    | _ n ih =>
      rcases lt_or_le n 33 with hn | hn
      · exact envAttackAlt_small n hn
      · have hiter : envIter envAttackAlt n = envIter envAttackAlt (n - 32) := by
          have h1 : envIter envAttackAlt (33 + (n - 33))
              = envIter (envIter envAttackAlt 33) (n - 33) :=
            envIter_add envAttackAlt 33 (n - 33)
          have h2 : envIter envAttackAlt (1 + (n - 33))
              = envIter (envIter envAttackAlt 1) (n - 33) :=
            envIter_add envAttackAlt 1 (n - 33)
          rw [show n = 33 + (n - 33) by omega, h1, envAttackAlt_periodic, ← h2,
            show 1 + (n - 33) = 33 + (n - 33) - 32 by omega]
        have hout : envOut envAttackAlt n = envOut envAttackAlt (n - 32) := by
          unfold envOut
          rw [hiter]
        rw [hout, ih (n - 32) (by omega)]
        have hm : (n - 32) % 32 = n % 32 := by omega
        rw [hm]

/-! Tone and noise generators (src/audio/ay.rs:205-296). -/

structure NoiseControl where
  rng : Int
  period : Nat
  tick : Nat
  low : Bool
deriving DecidableEq

/-- `NoiseControl::set_period` (ay.rs:223): mask to 5 bits, clamp 0 to 1,
reduce the tick modulo the new period when it is not below it. -/
def NoiseControl.setPeriod (p : Nat) (nc : NoiseControl) : NoiseControl :=
  let p0 := p &&& 0x1F
  let period := if p0 = 0 then 1 else p0
  { nc with
    period := period,
    tick := if period ≤ nc.tick then nc.tick % period else nc.tick }

structure ToneControl where
  period : Nat
  tick : Nat
  low : Bool
deriving DecidableEq

def TONE_GEN_MIN_THRESHOLD : Nat := 5

/-- `ToneControl::set_period` (ay.rs:273): mask to 12 bits, clamp 0 to 1,
reduce the tick modulo `period * 2` when `tick ≥ period * 2`. -/
def ToneControl.setPeriod (p : Nat) (t : ToneControl) : ToneControl :=
  let p0 := p &&& 0xFFF
  let period := if p0 = 0 then 1 else p0
  { t with
    period := period,
    tick := if period * 2 ≤ t.tick then t.tick % (period * 2) else t.tick }

/-- `ToneControl::update_is_low` (ay.rs:283): below the threshold the
flip-flop output is forced not-low without touching the stored state;
otherwise the flip-flop toggles when the tick reaches the period.  The
tick always advances by 2 with `u16` wrap. -/
def ToneControl.updateIsLow (t : ToneControl) : Bool × ToneControl :=
  if t.period < TONE_GEN_MIN_THRESHOLD then
    (false, { t with tick := (t.tick + 2) % 65536 })
  else if t.period ≤ t.tick then
    (!t.low, { t with tick := (t.tick - t.period + 2) % 65536, low := !t.low })
  else
    (t.low, { t with tick := (t.tick + 2) % 65536 })

/-- C6 (counterexample): `ToneControl::set_period` does not reduce a
stored tick that is at least the new period but below twice the new
period: with `tick = 4` and `set_period 3`, the tick stays 4 even though
`4 ≥ 3` and `4 % 3 = 1 ≠ 4`. -/
theorem tone_set_period_mod_cex :
    ((ToneControl.mk 100 4 false).setPeriod 3).period = 3 ∧
    3 ≤ 4 ∧
    ((ToneControl.mk 100 4 false).setPeriod 3).tick = 4 ∧
    (4 : Nat) % 3 = 1 := by decide

/-- C6 (amended): writing period 0 stores 1 in all three generators; a
stored tick is reduced modulo the new period for the noise and envelope
generators when `tick ≥ period`, while the tone generator (whose tick
counts half-periods) reduces modulo `2 * period` and only when
`tick ≥ 2 * period`; and a tone period below
`TONE_GEN_MIN_THRESHOLD = 5` makes `update_is_low` report not-low. -/
theorem ay_set_period_recoveries :
    (∀ t : ToneControl, (t.setPeriod 0).period = 1) ∧
    (∀ nc : NoiseControl, (nc.setPeriod 0).period = 1) ∧
    (∀ e : EnvelopeControl, (e.setPeriod 0).period = 1) ∧
    (∀ (nc : NoiseControl) (p : Nat), (nc.setPeriod p).tick
        = if (nc.setPeriod p).period ≤ nc.tick
          then nc.tick % (nc.setPeriod p).period else nc.tick) ∧
    (∀ (e : EnvelopeControl) (p : Nat), (e.setPeriod p).tick
        = if (e.setPeriod p).period ≤ e.tick
          then e.tick % (e.setPeriod p).period else e.tick) ∧
    (∀ (t : ToneControl) (p : Nat), (t.setPeriod p).tick
        = if (t.setPeriod p).period * 2 ≤ t.tick
          then t.tick % ((t.setPeriod p).period * 2) else t.tick) ∧
    (∀ t : ToneControl, t.period < TONE_GEN_MIN_THRESHOLD →
      (t.updateIsLow).1 = false) := by
  refine ⟨?_, ?_, ?_, ?_, ?_, ?_, ?_⟩
  · intro t
    rfl
  · intro nc
    rfl
  · intro e
    rfl
  · intro nc p
    rfl
  · intro e p
    rfl
  · intro t p
    rfl
  · intro t ht
    unfold ToneControl.updateIsLow
    rw [if_pos ht]

/-- C6 amended witness: period-0 clamping and tick reduction at concrete
states, and threshold silencing at period 3. -/
theorem ay_set_period_recoveries_witness :
    ((ToneControl.mk 7 0 false).setPeriod 0).period = 1 ∧
    ((NoiseControl.mk 1 3 9 false).setPeriod 6).tick = 9 % 6 ∧
    ((ToneControl.mk 3 10 true).updateIsLow).1 = false :=
  ⟨ay_set_period_recoveries.1 ⟨7, 0, false⟩,
   ay_set_period_recoveries.2.2.2.1 ⟨1, 3, 9, false⟩ 6,
   ay_set_period_recoveries.2.2.2.2.2.2 ⟨3, 10, true⟩ (by decide)⟩

/-- C10: when the tone period is below `TONE_GEN_MIN_THRESHOLD = 5`,
`update_is_low` returns `false` and the only state change is the tick
advancing by 2 with `u16` wrap — the stored `low` flip-flop phase and
the period are untouched, so the phase stored before the period dropped
below the threshold is observed again once the period is at least 5:
with `period ≥ 5` and `tick < period`, `update_is_low` reports the
stored phase and keeps it. -/
theorem tone_threshold_preserves_phase :
    (∀ t : ToneControl, t.period < TONE_GEN_MIN_THRESHOLD →
      t.updateIsLow = (false, { t with tick := (t.tick + 2) % 65536 }) ∧
      (t.updateIsLow).2.low = t.low ∧
      (t.updateIsLow).2.period = t.period) ∧
    (∀ t : ToneControl, TONE_GEN_MIN_THRESHOLD ≤ t.period → t.tick < t.period →
      (t.updateIsLow).1 = t.low ∧ (t.updateIsLow).2.low = t.low) := by
  constructor
  · intro t ht
    have h : t.updateIsLow = (false, { t with tick := (t.tick + 2) % 65536 }) := by
      unfold ToneControl.updateIsLow
      rw [if_pos ht]
    refine ⟨h, ?_, ?_⟩ <;> rw [h]
  · intro t h5 htk
    have h : t.updateIsLow = (t.low, { t with tick := (t.tick + 2) % 65536 }) := by
      unfold ToneControl.updateIsLow
      rw [if_neg (by omega), if_neg (by omega)]
    rw [h]
    exact ⟨rfl, rfl⟩

/-- C10 witness: a tone generator at period 3 keeps its `low = true`
phase through a below-threshold update, and reports the stored phase
again at period 5. -/
theorem tone_threshold_preserves_phase_witness :
    ((3 : Nat) < TONE_GEN_MIN_THRESHOLD ∧
      (ToneControl.mk 3 7 true).updateIsLow
        = (false, ToneControl.mk 3 ((7 + 2) % 65536) true) ∧
      ((ToneControl.mk 3 7 true).updateIsLow).2.low = true ∧
      ((ToneControl.mk 3 7 true).updateIsLow).2.period = 3) ∧
    (TONE_GEN_MIN_THRESHOLD ≤ (5 : Nat) ∧ (1 : Nat) < 5 ∧
      ((ToneControl.mk 5 1 true).updateIsLow).1 = true ∧
      ((ToneControl.mk 5 1 true).updateIsLow).2.low = true) :=
  ⟨⟨by decide, tone_threshold_preserves_phase.1 ⟨3, 7, true⟩ (by decide)⟩,
   ⟨by decide, by decide, tone_threshold_preserves_phase.2 ⟨5, 1, true⟩
     (by decide) (by decide)⟩⟩

/-! ## Bus device chain wired-AND reads

From `spectrusty_peripherals/src/bus/joystick.rs` (`JoystickBusDevice::read_io`,
lines 167-177) and `src/bus/dynbus.rs` (`DynamicBusDevice::read_io`,
lines 239-247).  `u8` data bytes become `Nat` bounded by 256; the
`Option<NonZeroU16>` wait-states payload becomes `Option Nat`. -/

/-- `JoystickBusDevice::read_io`: the downstream result `busData` is
obtained first; on a port match the joystick's byte is wired-ANDed onto
it (or returned alone when downstream does not drive the bus). -/
def joystickReadIo (matched : Bool) (joyData : Nat)
    (busData : Option (Nat × Option Nat)) : Option (Nat × Option Nat) :=
  if matched then
    match busData with
    | some (data, ws) => some (data &&& joyData, ws)
    | none => some (joyData, none)
  else busData

/-- A static chain of joystick-style links, each given by its port-match
result and its data byte for the port being read; the chain terminates in
a `NullDevice`, which returns `None`. -/
def chainReadIo : List (Bool × Nat) → Option (Nat × Option Nat)
  | [] => none
  | (m, d) :: rest => joystickReadIo m d (chainReadIo rest)

/-- `DynamicBusDevice::read_io`: start from the terminal static device's
result and fold every dynamic device's result (at this port and
timestamp) into it with `data & bus_data.unwrap_or(!0)`. -/
def dynReadIo (devs : List (Option Nat)) (busData : Option Nat) : Option Nat :=
  devs.foldl
    (fun acc dres =>
      match dres with
      | some data => some (data &&& acc.getD 255)
      | none => acc)
    busData

/-- Modelled from the spec: the default `PortAddress::match_port` of
`spectrusty_core` (not under src/), written per §4.4 and the §6 mask
table as `(addr & MASK) == (BITS & MASK)` — masking both sides is forced
by the table itself (for Kempston, `MASK = 0x0020`, `BITS = 0x001F`, and
§8 scenario 4 requires port `0x001F` to match). -/
def kempstonMatchPort (address : Nat) : Bool :=
  address &&& 0x0020 == 0x001F &&& 0x0020

lemma and_mask255 (d : Nat) (h : d < 256) : d &&& 255 = d := by
  have h1 : d &&& (2 ^ 8 - 1) = d % 2 ^ 8 := Nat.and_pow_two_sub_one_eq_mod d 8
  norm_num at h1
  omega

lemma chainReadIo_eq (devs : List (Bool × Nat))
    (hb : ∀ x ∈ devs, x.2 < 256) :
    chainReadIo devs
      = (if ((devs.filter (fun x => x.1)).map (fun x => x.2)) = [] then none
         else some
           ((((devs.filter (fun x => x.1)).map (fun x => x.2)).foldr
              (fun a b => a &&& b) 255), none)) := by
  induction devs with
  | nil => rfl
  | cons x rest ih =>
    obtain ⟨m, d⟩ := x
    have hd : d < 256 := hb (m, d) (List.mem_cons_self _ _)
    have ihr := ih (fun y hy => hb y (List.mem_cons_of_mem _ hy))
    cases m with
    | false =>
      show joystickReadIo false d (chainReadIo rest) = _
      unfold joystickReadIo
      rw [if_neg (by simp)]
      rw [ihr]
      simp [List.filter]
    | true =>
      show joystickReadIo true d (chainReadIo rest) = _
      unfold joystickReadIo
      rw [if_pos rfl]
      by_cases hm : ((rest.filter (fun x => x.1)).map (fun x => x.2)) = []
      · rw [ihr, if_pos hm]
        simp only [List.filter, List.map, hm]
        simp [and_mask255 d hd]
      · rw [ihr, if_neg hm]
        simp only [List.filter, List.map]
        rw [if_neg (by simp [hm])]
        simp only [List.foldr]
        rw [Nat.and_comm]

lemma dynReadIo_eq (devs : List (Option Nat)) :
    ∀ busData : Option Nat, (∀ b ∈ busData, b < 256) →
    dynReadIo devs busData
      = (if devs.filterMap id = [] then busData
         else some ((devs.filterMap id).foldl (fun a d => d &&& a)
           (busData.getD 255))) := by
  induction devs with
  | nil =>
    intro busData hb
    rfl
  | cons x rest ih =>
    intro busData hb
    cases x with
    | none =>
      show dynReadIo rest busData = _
      rw [ih busData hb]
      simp [List.filterMap]
    | some data =>
      show dynReadIo rest (some (data &&& busData.getD 255)) = _
      rw [ih (some (data &&& busData.getD 255))
        (by
          intro b hbmem
          simp only [Option.mem_def, Option.some.injEq] at hbmem
          subst hbmem
          have hg : busData.getD 255 < 256 := by
            cases busData with
            | none => norm_num
            | some b0 => simpa using hb b0 rfl
          exact Nat.lt_of_le_of_lt Nat.and_le_right hg)]
      by_cases hm : rest.filterMap id = []
      · rw [if_pos hm]
        simp [List.filterMap, hm]
      · rw [if_neg hm]
        simp only [List.filterMap, hm]
        rw [if_neg (by simp [hm])]
        simp [List.foldl]

/-- C3: along a bus chain, a read of a port matched by several devices
returns `Some` whose data byte is the bitwise AND of all matching
devices' bytes — for the static joystick chain (terminated by the null
device) and for the dynamic chain (folded over the terminal device's
result); in particular a Kempston joystick returning `0x1F` on matching
port `0x001F` wired-ANDs with a downstream device returning `0xF0` to
`Some((0xF0 & 0x1F, _)) = Some((0x10, _))`. -/
theorem bus_chain_wired_and :
    (∀ devs : List (Bool × Nat), (∀ x ∈ devs, x.2 < 256) →
      chainReadIo devs
        = (if ((devs.filter (fun x => x.1)).map (fun x => x.2)) = [] then none
           else some
             ((((devs.filter (fun x => x.1)).map (fun x => x.2)).foldr
                (fun a b => a &&& b) 255), none))) ∧
    (∀ (devs : List (Option Nat)) (busData : Option Nat),
      (∀ b ∈ busData, b < 256) →
      dynReadIo devs busData
        = (if devs.filterMap id = [] then busData
           else some ((devs.filterMap id).foldl (fun a d => d &&& a)
             (busData.getD 255)))) ∧
    (∀ ws : Option Nat,
      joystickReadIo (kempstonMatchPort 0x001F) 0x1F (some (0xF0, ws))
        = some (0xF0 &&& 0x1F, ws) ∧ 0xF0 &&& 0x1F = 0x10) := by
  refine ⟨chainReadIo_eq, fun devs b hb => dynReadIo_eq devs b hb, ?_⟩
  intro ws
  constructor
  · rfl
  · rfl

/-- C3 witness: a two-device chain (a matching Kempston byte below a
matching downstream byte) reads as the AND of both; a dynamic chain with
terminal `0xF0` and one device driving `0x1F` reads the same. -/
theorem bus_chain_wired_and_witness :
    ((∀ x ∈ [(true, 0x1F), (true, 0xF0)], (x : Bool × Nat).2 < 256) ∧
      chainReadIo [(true, 0x1F), (true, 0xF0)]
        = (if (([(true, 0x1F), (true, 0xF0)].filter
              (fun x => x.1)).map (fun x => x.2)) = [] then none
           else some
             (((([(true, 0x1F), (true, 0xF0)].filter
                (fun x => x.1)).map (fun x => x.2)).foldr
                (fun a b => a &&& b) 255), none))) ∧
    ((∀ b ∈ (some 0xF0 : Option Nat), b < 256) ∧
      dynReadIo [some 0x1F] (some 0xF0)
        = (if ([some 0x1F] : List (Option Nat)).filterMap id = []
           then (some 0xF0 : Option Nat)
           else some ((([some 0x1F] : List (Option Nat)).filterMap id).foldl
             (fun a d => d &&& a) ((some 0xF0 : Option Nat).getD 255)))) ∧
    (joystickReadIo (kempstonMatchPort 0x001F) 0x1F (some (0xF0, none))
      = some (0xF0 &&& 0x1F, none) ∧ 0xF0 &&& 0x1F = 0x10) :=
  ⟨⟨by decide, bus_chain_wired_and.1 [(true, 0x1F), (true, 0xF0)] (by decide)⟩,
   ⟨by decide, bus_chain_wired_and.2.1 [some 0x1F] (some 0xF0) (by decide)⟩,
   bus_chain_wired_and.2.2 none⟩

/-! ## Video timestamps and per-frame change logs

`VideoTs` is the `(vc, hc)` pair (`i16` fields become `Int`); the packed
log entry types `VideoTsData1/2/3` (clock module, pinned by spec §3)
become `VideoTsD` with a payload `data`, ordered lexicographically by
`(vc, hc, data)`.  All instantiations below use the 48K frame constants:
`VSL_COUNT = 312`, `HTS_COUNT = 224`, `HTS_RANGE = -69..155`,
`FRAME_TSTATES_COUNT = 69888`. -/

structure VideoTs where
  vc : Int
  hc : Int
deriving DecidableEq

structure VideoTsD where
  vc : Int
  hc : Int
  data : Nat
deriving DecidableEq

def VideoTs.leB (a b : VideoTs) : Bool :=
  decide (a.vc < b.vc ∨ (a.vc = b.vc ∧ a.hc ≤ b.hc))

def VideoTs.ltB (a b : VideoTs) : Bool :=
  decide (a.vc < b.vc ∨ (a.vc = b.vc ∧ a.hc < b.hc))

def VideoTsD.ts (e : VideoTsD) : VideoTs := ⟨e.vc, e.hc⟩

/-- Packed comparison of log entries, lexicographic in `(vc, hc, data)`. -/
def VideoTsD.keyLtB (a b : VideoTsD) : Bool :=
  decide (a.vc < b.vc ∨ (a.vc = b.vc ∧
    (a.hc < b.hc ∨ (a.hc = b.hc ∧ a.data < b.data))))

def VideoTsD.keyLeB (a b : VideoTsD) : Bool :=
  decide (a.vc < b.vc ∨ (a.vc = b.vc ∧
    (a.hc < b.hc ∨ (a.hc = b.hc ∧ a.data ≤ b.data))))

/-- `VideoTs::from(tscd) <= self.tsc`: timestamp-only comparison. -/
def VideoTsD.tsLeB (e : VideoTsD) (t : VideoTs) : Bool :=
  decide (e.vc < t.vc ∨ (e.vc = t.vc ∧ e.hc ≤ t.hc))

/-- Modelled from the spec (§3, the flat T-state of a `VTs`), for the 48K
frame; validated by the conversion table in the src/chip/ula/video.rs
tests (`(0,-69) ↦ -69`, `(312,0) ↦ 69888`). -/
def vtsToTstates (v : VideoTs) : Int := v.vc * 224 + v.hc

/-- `i32::saturating_sub`. -/
def satSub32 (x y : Int) : Int :=
  max (-2147483648) (min (x - y) 2147483647)

/-- Modelled from the spec (§2 Clock: arithmetic with normalization
carrying `hc` overflow into `vc`): `VideoFrame::vts_add_ts` for the 48K
frame, validated by the src/chip/ula/video.rs test table
(`(-1,154)+1 ↦ (0,-69)`, `(2,224)+69888 ↦ (315,0)`). -/
def vtsAddTs (v : VideoTs) (delta : Nat) : VideoTs :=
  let t := v.hc + (delta : Int) + 69
  ⟨v.vc + t / 224, t % 224 - 69⟩

/-! ### Ear-in log compaction at frame end
(src/chip/ula/audio.rs:192-240, `cleanup_audio_frame_data` and
`read_ear_in`). -/

structure UlaAudioState where
  tsc : VideoTs
  earInChanges : List VideoTsD
  earInLastIndex : Nat
  prevEarIn : Nat
  prevEarmicTs : Int
  prevEarmicData : Nat
  lastEarmicData : Nat
  earmicOutChanges : List VideoTsD
deriving DecidableEq

/-- `Ula::read_ear_in` (audio.rs:219).  `slice::binary_search` against the
packed key `(ts, 1)` on the (sorted) tail of the log is embedded as the
length of its `≤`-prefix: `Err(0)` becomes `cnt = 0`, and otherwise the
found index is `cnt - 1`, the last entry `≤` the key. -/
def readEarIn (st : UlaAudioState) : Nat × UlaAudioState :=
  let changes := st.earInChanges.drop st.earInLastIndex
  if changes.isEmpty then
    (if st.lastEarmicData &&& 2 = 0 then 0 else 1, st)
  else
    let cnt := (changes.takeWhile
      (fun e => VideoTsD.keyLeB e ⟨st.tsc.vc, st.tsc.hc, 1⟩)).length
    if cnt = 0 then (st.prevEarIn, st)
    else
      ((changes[cnt - 1]?.map VideoTsD.data).getD 0,
       { st with earInLastIndex := st.earInLastIndex + (cnt - 1) })

/-- `Ula::cleanup_audio_frame_data` (audio.rs:192): saturate-shift the
previous earmic timestamp, clear the earmic-out log, refresh
`prev_ear_in` via `read_ear_in(tsc)`, then compact the ear-in log:
drop the consumed prefix (`copy_within(index.., 0)` + `truncate`) and
decrement every kept entry's `vc` by `VSL_COUNT = 312`. -/
def cleanupAudioFrameData (st : UlaAudioState) : UlaAudioState :=
  let pts :=
    match st.earmicOutChanges.getLast? with
    | some e => vtsToTstates ⟨e.vc, e.hc⟩
    | none => st.prevEarmicTs
  let st1 := { st with
    prevEarmicTs := satSub32 pts 69888,
    earmicOutChanges := [],
    prevEarmicData := st.lastEarmicData }
  let r := readEarIn st1
  let st2 := { r.2 with prevEarIn := r.1 }
  let index :=
    match st2.earInChanges[st2.earInLastIndex]? with
    | some e =>
      if VideoTsD.tsLeB e st2.tsc then st2.earInLastIndex + 1
      else st2.earInLastIndex
    | none => st2.earInLastIndex
  { st2 with
    earInChanges := (st2.earInChanges.drop index).map
      (fun e => ⟨e.vc - 312, e.hc, e.data⟩),
    earInLastIndex := 0 }

/-! Generic facts about `takeWhile`/`filter`/`drop` on sorted lists. -/

lemma takeWhile_congr {α : Type} (f g : α → Bool) :
    ∀ L : List α, (∀ e ∈ L, f e = g e) → L.takeWhile f = L.takeWhile g := by
  intro L
  induction L with
  | nil => intro _; rfl
  | cons a L ih =>
    intro h
    have ha := h a (List.mem_cons_self _ _)
    rw [List.takeWhile_cons, List.takeWhile_cons, ha]
    by_cases hga : g a = true
    · rw [if_pos hga, if_pos hga, ih (fun e he => h e (List.mem_cons_of_mem _ he))]
    · rw [if_neg hga, if_neg hga]

lemma sorted_takeWhile_filter {α : Type} (p : α → Bool) (R : α → α → Prop)
    (hdc : ∀ a b, R a b → p b = true → p a = true) :
    ∀ L : List α, List.Pairwise R L →
    L.takeWhile p = L.filter p ∧
    L.drop (L.takeWhile p).length = L.filter (fun e => !(p e)) := by
  intro L
  induction L with
  | nil => intro _; exact ⟨rfl, rfl⟩
  | cons a L ih =>
    intro hp
    obtain ⟨ha, hL⟩ := List.pairwise_cons.mp hp
    obtain ⟨ih1, ih2⟩ := ih hL
    by_cases hpa : p a = true
    · constructor
      · rw [List.takeWhile_cons, if_pos hpa, List.filter_cons, if_pos hpa, ih1]
      · rw [List.takeWhile_cons, if_pos hpa, List.filter_cons]
        simp only [hpa, Bool.not_true, List.length_cons, List.drop_succ_cons,
          ih2, if_neg]
        rfl
    · have hall : ∀ b ∈ L, p b = false := by
        intro b hb
        cases hpb : p b with
        | false => rfl
        | true => exact absurd (hdc a b (ha b hb) hpb) (by simp [hpa])
      constructor
      · rw [List.takeWhile_cons, if_neg hpa, List.filter_cons, if_neg hpa]
        rw [List.filter_eq_nil_iff.mpr (fun b hb => by simp [hall b hb])]
      · rw [List.takeWhile_cons, if_neg hpa]
        simp only [List.length_nil, List.drop_zero]
        rw [List.filter_cons, if_pos (by simp [hpa]),
          List.filter_eq_self.mpr (fun b hb => by simp [hall b hb])]

lemma take_all_le_takeWhile {α : Type} (p : α → Bool) :
    ∀ (L : List α) (n : Nat), n ≤ L.length →
    (∀ e ∈ L.take n, p e = true) → n ≤ (L.takeWhile p).length := by
  intro L
  induction L with
  | nil =>
    intro n hn _
    simpa using hn
  | cons a L ih =>
    intro n hn hall
    cases n with
    | zero => exact Nat.zero_le _
    | succ n =>
      have hpa : p a = true := hall a (by simp)
      rw [List.takeWhile_cons, if_pos hpa]
      simp only [List.length_cons]
      have := ih n (by simpa using hn)
        (fun e he => hall e (by simp [List.take_succ_cons]; right; exact he))
      omega

lemma takeWhile_drop_length {α : Type} (p : α → Bool) :
    ∀ (L : List α) (n : Nat), (∀ e ∈ L.take n, p e = true) →
    (L.takeWhile p).length = min n L.length + ((L.drop n).takeWhile p).length := by
  intro L
  induction L with
  | nil => intro n _; simp
  | cons a L ih =>
    intro n hall
    cases n with
    | zero => simp
    | succ n =>
      have hpa : p a = true := hall a (by simp)
      rw [List.takeWhile_cons, if_pos hpa]
      simp only [List.length_cons, List.drop_succ_cons]
      rw [ih n (fun e he => hall e (by simp [List.take_succ_cons]; right; exact he))]
      omega

lemma takeWhile_elem {α : Type} (p : α → Bool) :
    ∀ (L : List α) (i : Nat), i < (L.takeWhile p).length →
    ∃ e, L[i]? = some e ∧ p e = true := by
  intro L
  induction L with
  | nil => intro i hi; simp at hi
  | cons a L ih =>
    intro i hi
    rw [List.takeWhile_cons] at hi
    by_cases hpa : p a = true
    · rw [if_pos hpa] at hi
      cases i with
      | zero => exact ⟨a, by simp, hpa⟩
      | succ i => simpa using ih i (by simpa using hi)
    · rw [if_neg hpa] at hi
      simp at hi

lemma takeWhile_nil_head {α : Type} (p : α → Bool) (a : α) (L : List α)
    (h : ((a :: L).takeWhile p).length = 0) : p a = false := by
  rw [List.takeWhile_cons] at h
  by_cases hpa : p a = true
  · rw [if_pos hpa] at h
    simp at h
  · simpa using hpa

/-- C5 (counterexample input): a state at end of frame (`tsc = (312, 0)`,
which is EOF since `vc ≥ VSL_COUNT`) whose ear-in log holds one entry fed
two frames ahead — reachable via `feed_ear_in` with
`max_frames_threshold ≥ 3`. -/
def farFutureEarInState : UlaAudioState :=
  ⟨⟨312, 0⟩, [⟨700, 0, 1⟩], 0, 0, 0, 0, 0, []⟩

/-- C5 (counterexample): after cleanup, the carried-over entry's `vc` is
`700 - 312 = 388`, which does not lie in `[0, VSL_COUNT) = [0, 312)`,
refuting the claim that every remaining entry has `vc` in that range. -/
theorem cleanup_far_future_cex :
    (cleanupAudioFrameData farFutureEarInState).earInChanges
      = [⟨388, 0, 1⟩] ∧
    ¬((388 : Int) < 312) := by
  constructor
  · rfl
  · decide

/-- C5 (amended): at a frame end (`tsc.vc ≥ VSL_COUNT = 312`), given the
log invariants maintained by the append paths and `read_ear_in`
(strictly ascending packed entries, 1-bit payloads, a consumed prefix of
entries not beyond `tsc`), `cleanup_audio_frame_data` leaves exactly the
entries with timestamp beyond `tsc`, each with `vc` decremented by
`VSL_COUNT`; every remaining entry has `0 ≤ vc`, and those that lay
within the immediately following frame (`vc < 2·VSL_COUNT`) land in
`[0, VSL_COUNT)` — but entries fed further ahead keep `vc ≥ VSL_COUNT`. -/
theorem cleanup_ear_in_compaction (t : VideoTs) (L : List VideoTsD)
    (idx : Nat) (pe : Nat) (pts : Int) (ped led : Nat) (emo : List VideoTsD)
    (hsort : List.Pairwise (fun a b => VideoTsD.keyLtB a b = true) L)
    (hdata : ∀ e ∈ L, e.data ≤ 1)
    (hidx : idx ≤ L.length)
    (hpre : ∀ e ∈ L.take idx, VideoTsD.tsLeB e t = true)
    (hvc : 312 ≤ t.vc) :
    (cleanupAudioFrameData ⟨t, L, idx, pe, pts, ped, led, emo⟩).earInChanges
      = (L.filter (fun e => !(VideoTsD.tsLeB e t))).map
          (fun e => ⟨e.vc - 312, e.hc, e.data⟩) ∧
    (cleanupAudioFrameData ⟨t, L, idx, pe, pts, ped, led, emo⟩).earInLastIndex
      = 0 ∧
    (∀ e ∈ (cleanupAudioFrameData
        ⟨t, L, idx, pe, pts, ped, led, emo⟩).earInChanges, 0 ≤ e.vc) ∧
    (∀ e ∈ L, VideoTsD.tsLeB e t = false → e.vc < 624 → e.vc - 312 < 312) := by
  have hdc : ∀ a b : VideoTsD, VideoTsD.keyLtB a b = true →
      VideoTsD.tsLeB b t = true → VideoTsD.tsLeB a t = true := by
    intro a b hab hbt
    unfold VideoTsD.keyLtB at hab
    unfold VideoTsD.tsLeB at hbt ⊢
    simp only [decide_eq_true_eq] at hab hbt ⊢
    omega
  have hfilter := sorted_takeWhile_filter (fun e => VideoTsD.tsLeB e t)
    (fun a b => VideoTsD.keyLtB a b = true) hdc L hsort
  -- the compaction drops exactly `k` entries
  have hmain : (cleanupAudioFrameData
      ⟨t, L, idx, pe, pts, ped, led, emo⟩).earInChanges
        = (L.drop ((L.takeWhile (fun e => VideoTsD.tsLeB e t)).length)).map
            (fun e => ⟨e.vc - 312, e.hc, e.data⟩) ∧
      (cleanupAudioFrameData
        ⟨t, L, idx, pe, pts, ped, led, emo⟩).earInLastIndex = 0 := by
    have hagree : ((L.drop idx).takeWhile
        (fun e => VideoTsD.keyLeB e ⟨t.vc, t.hc, 1⟩))
          = ((L.drop idx).takeWhile (fun e => VideoTsD.tsLeB e t)) := by
      apply takeWhile_congr
      intro e he
      have hd : e.data ≤ 1 := hdata e (List.mem_of_mem_drop he)
      unfold VideoTsD.keyLeB VideoTsD.tsLeB
      rw [decide_eq_decide]
      dsimp only
      omega
    have hK : (L.takeWhile (fun e => VideoTsD.tsLeB e t)).length
        = idx + ((L.drop idx).takeWhile (fun e => VideoTsD.tsLeB e t)).length := by
      rw [takeWhile_drop_length _ L idx hpre]
      omega
    by_cases hA : (L.drop idx).isEmpty
    · have hdnil : L.drop idx = [] := by
        cases h : L.drop idx with
        | nil => rfl
        | cons a l => rw [h] at hA; simp at hA
      have hlen : idx = L.length := by
        have := congrArg List.length hdnil
        simp only [List.length_drop, List.length_nil] at this
        omega
      have hkidx : (L.takeWhile (fun e => VideoTsD.tsLeB e t)).length = idx := by
        have h1 := take_all_le_takeWhile _ L idx hidx hpre
        have h2 : (L.takeWhile (fun e => VideoTsD.tsLeB e t)).length ≤ L.length :=
          (List.takeWhile_prefix _).sublist.length_le
        omega
      have hnone : L[idx]? = none := by
        apply List.getElem?_eq_none
        omega
      unfold cleanupAudioFrameData readEarIn
      simp [hdnil, hnone, hkidx]
    · have hABool : (L.drop idx).isEmpty = false := by
        cases h : (L.drop idx).isEmpty
        · rfl
        · exact absurd h hA
      by_cases hcnt : ((L.drop idx).takeWhile
          (fun e => VideoTsD.tsLeB e t)).length = 0
      · -- no unconsumed entry is ≤ tsc
        obtain ⟨e0, rest, hd⟩ : ∃ e0 rest, L.drop idx = e0 :: rest := by
          cases h : L.drop idx with
          | nil => rw [h] at hABool; simp at hABool
          | cons a l => exact ⟨a, l, rfl⟩
        have hpe0 : VideoTsD.tsLeB e0 t = false := by
          apply takeWhile_nil_head (fun e => VideoTsD.tsLeB e t) e0 rest
          rw [← hd]
          exact hcnt
        have hsome : L[idx]? = some e0 := by
          have := List.getElem?_drop L idx 0
          rw [hd] at this
          simpa using this.symm
        have hkidx : (L.takeWhile (fun e => VideoTsD.tsLeB e t)).length = idx := by
          omega
        unfold cleanupAudioFrameData readEarIn
        simp [hABool, hagree, hcnt, hsome, hpe0, hkidx]
      · -- the unconsumed prefix ≤ tsc is nonempty
        obtain ⟨e1, hsome1, hpe1⟩ := takeWhile_elem
          (fun e => VideoTsD.tsLeB e t) (L.drop idx)
          (((L.drop idx).takeWhile (fun e => VideoTsD.tsLeB e t)).length - 1)
          (by omega)
        have hsome : L[idx + (((L.drop idx).takeWhile
            (fun e => VideoTsD.tsLeB e t)).length - 1)]? = some e1 := by
          rw [← List.getElem?_drop]
          exact hsome1
        have hkfin : (L.takeWhile (fun e => VideoTsD.tsLeB e t)).length
            = idx + (((L.drop idx).takeWhile
                (fun e => VideoTsD.tsLeB e t)).length - 1) + 1 := by
          omega
        unfold cleanupAudioFrameData readEarIn
        simp [hABool, hagree, hcnt, hsome, hpe1, hkfin]
  refine ⟨?_, hmain.2, ?_, ?_⟩
  · rw [hmain.1, hfilter.2]
  · intro e he
    rw [hmain.1, hfilter.2] at he
    simp only [List.mem_map, List.mem_filter] at he
    obtain ⟨e0, ⟨he0L, he0p⟩, heq⟩ := he
    have : VideoTsD.tsLeB e0 t = false := by
      cases h : VideoTsD.tsLeB e0 t
      · rfl
      · rw [h] at he0p
        simp at he0p
    unfold VideoTsD.tsLeB at this
    simp only [decide_eq_false_iff_not] at this
    subst heq
    simp only
    omega
  · intro e _ hf hlt
    omega

/-- C5 amended witness: a frame-end state with one consumed entry and one
entry just past the boundary; cleanup keeps exactly the latter, shifted
to `vc = 0`. -/
theorem cleanup_ear_in_compaction_witness :
    (List.Pairwise (fun a b => VideoTsD.keyLtB a b = true)
        [⟨100, 0, 0⟩, ⟨312, 5, 1⟩] ∧
      (1 : Nat) ≤ ([⟨100, 0, 0⟩, ⟨312, 5, 1⟩] : List VideoTsD).length ∧
      (312 : Int) ≤ (VideoTs.mk 312 2).vc) ∧
    ((cleanupAudioFrameData
        ⟨⟨312, 2⟩, [⟨100, 0, 0⟩, ⟨312, 5, 1⟩], 1, 0, 0, 0, 0, []⟩).earInChanges
      = (([⟨100, 0, 0⟩, ⟨312, 5, 1⟩] : List VideoTsD).filter
          (fun e => !(VideoTsD.tsLeB e ⟨312, 2⟩))).map
            (fun e => ⟨e.vc - 312, e.hc, e.data⟩) ∧
      (cleanupAudioFrameData
        ⟨⟨312, 2⟩, [⟨100, 0, 0⟩, ⟨312, 5, 1⟩], 1, 0, 0, 0, 0, []⟩).earInLastIndex
        = 0 ∧
      (∀ e ∈ (cleanupAudioFrameData
          ⟨⟨312, 2⟩, [⟨100, 0, 0⟩, ⟨312, 5, 1⟩], 1, 0, 0, 0, 0, []⟩).earInChanges,
        0 ≤ e.vc) ∧
      (∀ e ∈ ([⟨100, 0, 0⟩, ⟨312, 5, 1⟩] : List VideoTsD),
        VideoTsD.tsLeB e ⟨312, 2⟩ = false → e.vc < 624 → e.vc - 312 < 312)) :=
  ⟨⟨by decide, by decide, by decide⟩,
   cleanup_ear_in_compaction ⟨312, 2⟩ [⟨100, 0, 0⟩, ⟨312, 5, 1⟩] 1 0 0 0 0 []
     (by decide) (by decide) (by decide) (by decide) (by decide)⟩

/-! ### Per-frame log appends and their VTs monotonicity

The border log append is `Ula::set_border_color`
(src/chip/ula/video.rs:104-109); the earmic-out append is modelled from
the spec (§4.6: "append `(tsc, earmic)` to earmic log when changed" —
src/chip/ula/io.rs is not part of this repository snapshot) and has the
same change-conditional shape; the AY register-change recorder is
modelled from the spec (§2: "records each write to
`{register, value, frame_timestamp}` in an ordered per-frame log"); the
ear-in appends are `EarIn::set_ear_in` / `feed_ear_in`
(src/chip/ula/audio.rs:70-111). -/

/-- Append `(tsc, value)` to a change log when the value differs from the
last recorded one; the state is `(last_value, log)`.  This is the body of
`set_border_color` and of the spec-modelled earmic-out write. -/
def appendChange (t : VideoTs) (v : Nat) (st : Nat × List VideoTsD) :
    Nat × List VideoTsD :=
  if st.1 ≠ v then (v, st.2 ++ [⟨t.vc, t.hc, v⟩]) else st

/-- A frame's worth of change-writes, each at the ULA's current `tsc`. -/
def runChanges : List (VideoTs × Nat) → Nat × List VideoTsD → Nat × List VideoTsD
  | [], st => st
  | (t, v) :: evs, st => runChanges evs (appendChange t v st)

structure AyRegChange where
  vc : Int
  hc : Int
  reg : Nat
  val : Nat
deriving DecidableEq

def AyRegChange.ts (e : AyRegChange) : VideoTs := ⟨e.vc, e.hc⟩

/-- Modelled from the spec: each AY register write is recorded
unconditionally with the current frame timestamp. -/
def runAyRegWrites : List (VideoTs × Nat × Nat) → List AyRegChange →
    List AyRegChange
  | [], log => log
  | (t, reg, val) :: evs, log => runAyRegWrites evs (log ++ [⟨t.vc, t.hc, reg, val⟩])

/-- Adjacent-pairs check that a timestamp list is non-decreasing. -/
def chainLeTs : List VideoTs → Bool
  | [] => true
  | [_] => true
  | a :: b :: l => VideoTs.leB a b && chainLeTs (b :: l)

def VideoTs.normB (v : VideoTs) : Bool := decide (-69 ≤ v.hc ∧ v.hc < 155)

/-- The ear-in log invariant: non-decreasing timestamps, all normalized. -/
def earLogOkB (l : List VideoTsD) : Bool :=
  chainLeTs (l.map VideoTsD.ts) && (l.map VideoTsD.ts).all VideoTs.normB

/-- The subset of `Ula` state touched by the ear-in feeders. -/
structure EarInState where
  tsc : VideoTs
  earInChanges : List VideoTsD
  prevEarIn : Nat
  prevEarmicData : Nat
deriving DecidableEq

def boolToNat (b : Bool) : Nat := if b then 1 else 0

/-- `VideoTsData1::set_data` applied to the last log entry. -/
def setLastData (d : Nat) : List VideoTsD → List VideoTsD
  | [] => []
  | [e] => [⟨e.vc, e.hc, d⟩]
  | e :: e2 :: rest => e :: setLastData d (e2 :: rest)

/-- `EarIn::set_ear_in` (audio.rs:70): with `delta_fts = 0` the last
entry's data bit is overwritten (or, on an empty log, `prev_earmic_data`);
otherwise an entry is appended at the last timestamp (or `tsc`) advanced
by `delta_fts`. -/
def setEarIn (earIn : Bool) (delta : Nat) (st : EarInState) : EarInState :=
  if delta = 0 then
    match st.earInChanges with
    | [] => { st with prevEarmicData := boolToNat earIn }
    | _ => { st with earInChanges := setLastData (boolToNat earIn) st.earInChanges }
  else
    let base :=
      match st.earInChanges.getLast? with
      | some e => VideoTs.mk e.vc e.hc
      | none => st.tsc
    let v := vtsAddTs base delta
    { st with earInChanges := st.earInChanges ++ [⟨v.vc, v.hc, boolToNat earIn⟩] }

/-- `max_vc` of `feed_ear_in` (audio.rs:98-102):
`checked_mul`/`checked_add`/`try_into::<i16>` with the
`Ts::max_value() - VSL_COUNT - Ts::max_value() % VSL_COUNT + 1` fallback,
for the 48K frame (`VSL_COUNT = 312`). -/
def maxVcOf (mft : Option Nat) : Int :=
  match mft with
  | some mf =>
    if mf * 312 + 1 ≤ 32767 then ((mf * 312 + 1 : Nat) : Int)
    else 32767 - 312 - 32767 % 312 + 1
  | none => 32767 - 312 - 32767 % 312 + 1

/-- The `for dlt in fts_deltas` loop of `feed_ear_in` (audio.rs:103-110):
advance the running timestamp by each delta, toggle the ear bit, push,
and stop after crossing `max_vc`. -/
def feedEarInAux (maxVc : Int) :
    List Nat → VideoTs → Nat → List VideoTsD → List VideoTsD
  | [], _, _, log => log
  | d :: ds, v, e, log =>
    let v2 := vtsAddTs v d
    let e2 := e ^^^ 1
    let log2 := log ++ [⟨v2.vc, v2.hc, e2⟩]
    if maxVc ≤ v2.vc then log2 else feedEarInAux maxVc ds v2 e2 log2

/-- `EarIn::feed_ear_in` (audio.rs:90): continue from the last logged
entry (or `(tsc, prev_ear_in)`). -/
def feedEarIn (deltas : List Nat) (mft : Option Nat) (st : EarInState) :
    EarInState :=
  let p :=
    match st.earInChanges.getLast? with
    | some e => (VideoTs.mk e.vc e.hc, e.data)
    | none => (st.tsc, st.prevEarIn)
  { st with earInChanges := feedEarInAux (maxVcOf mft) deltas p.1 p.2 st.earInChanges }

lemma vts_leB_refl (a : VideoTs) : VideoTs.leB a a = true := by
  unfold VideoTs.leB
  simp

lemma vts_leB_trans (a b c : VideoTs) (h1 : VideoTs.leB a b = true)
    (h2 : VideoTs.leB b c = true) : VideoTs.leB a c = true := by
  unfold VideoTs.leB at *
  simp only [decide_eq_true_eq] at *
  omega

lemma vts_ltB_leB (a b : VideoTs) (h : VideoTs.ltB a b = true) :
    VideoTs.leB a b = true := by
  unfold VideoTs.ltB at h
  unfold VideoTs.leB
  simp only [decide_eq_true_eq] at *
  omega

lemma vtsAddTs_mono (v : VideoTs) (d : Nat) (hn : VideoTs.normB v = true)
    (hd : 1 ≤ d) :
    VideoTs.ltB v (vtsAddTs v d) = true ∧
    VideoTs.normB (vtsAddTs v d) = true := by
  unfold VideoTs.normB at hn
  unfold vtsAddTs VideoTs.ltB VideoTs.normB
  simp only [decide_eq_true_eq] at *
  constructor
  · omega
  · omega

lemma chainLeTs_tail (a : VideoTs) (l : List VideoTs)
    (h : chainLeTs (a :: l) = true) :
    chainLeTs l = true ∧ ∀ b ∈ l.head?, VideoTs.leB a b = true := by
  cases l with
  | nil => exact ⟨rfl, by simp⟩
  | cons b t =>
    rw [chainLeTs] at h
    rw [Bool.and_eq_true] at h
    exact ⟨h.2, by simpa using h.1⟩

lemma chainLeTs_append (x : VideoTs) :
    ∀ l : List VideoTs, chainLeTs l = true →
    (∀ a ∈ l.getLast?, VideoTs.leB a x = true) →
    chainLeTs (l ++ [x]) = true := by
  intro l
  induction l with
  | nil => intro _ _; rfl
  | cons a l ih =>
    intro hc hl
    cases l with
    | nil =>
      have := hl a (by simp)
      show chainLeTs [a, x] = true
      rw [chainLeTs, this]
      rfl
    | cons b t =>
      rw [chainLeTs] at hc
      rw [Bool.and_eq_true] at hc
      show chainLeTs (a :: ((b :: t) ++ [x])) = true
      rw [show a :: ((b :: t) ++ [x]) = a :: b :: (t ++ [x]) from rfl, chainLeTs,
        Bool.and_eq_true]
      refine ⟨hc.1, ?_⟩
      exact ih hc.2 (fun y hy => hl y (by simpa using hy))

lemma setLastData_map_ts (d : Nat) :
    ∀ l : List VideoTsD, (setLastData d l).map VideoTsD.ts = l.map VideoTsD.ts := by
  intro l
  induction l with
  | nil => rfl
  | cons e l ih =>
    cases l with
    | nil => rfl
    | cons e2 rest =>
      show VideoTsD.ts e :: (setLastData d (e2 :: rest)).map VideoTsD.ts = _
      rw [ih]
      rfl

lemma runChanges_mono :
    ∀ (evs : List (VideoTs × Nat)) (st : Nat × List VideoTsD),
    chainLeTs (evs.map Prod.fst) = true →
    chainLeTs (st.2.map VideoTsD.ts) = true →
    (∀ a ∈ (st.2.map VideoTsD.ts).getLast?, ∀ f ∈ (evs.map Prod.fst).head?,
      VideoTs.leB a f = true) →
    chainLeTs (((runChanges evs st).2).map VideoTsD.ts) = true := by
  intro evs
  induction evs with
  | nil =>
    intro st _ h2 _
    exact h2
  | cons ev evs ih =>
    obtain ⟨t, v⟩ := ev
    intro st h1 h2 h3
    have hec := chainLeTs_tail t (evs.map Prod.fst) (by simpa using h1)
    show chainLeTs (((runChanges evs (appendChange t v st)).2).map VideoTsD.ts)
      = true
    by_cases hch : st.1 ≠ v
    · have happ : appendChange t v st = (v, st.2 ++ [⟨t.vc, t.hc, v⟩]) := by
        unfold appendChange
        rw [if_pos hch]
      rw [happ]
      apply ih _ hec.1
      · show chainLeTs ((st.2 ++ [(⟨t.vc, t.hc, v⟩ : VideoTsD)]).map VideoTsD.ts)
          = true
        rw [List.map_append]
        show chainLeTs (st.2.map VideoTsD.ts ++ [t]) = true
        exact chainLeTs_append t _ h2 (fun a ha => h3 a ha t (by simp))
      · intro a ha f hf
        rw [List.map_append] at ha
        simp only [List.map_cons, List.map_nil, List.getLast?_concat,
          Option.mem_def, Option.some.injEq] at ha
        subst ha
        exact hec.2 f hf
    · have happ : appendChange t v st = st := by
        unfold appendChange
        rw [if_neg hch]
      rw [happ]
      apply ih _ hec.1 h2
      intro a ha f hf
      exact vts_leB_trans a t f (h3 a ha t (by simp)) (hec.2 f hf)

lemma runAyRegWrites_mono :
    ∀ (evs : List (VideoTs × Nat × Nat)) (log : List AyRegChange),
    chainLeTs (evs.map Prod.fst) = true →
    chainLeTs (log.map AyRegChange.ts) = true →
    (∀ a ∈ (log.map AyRegChange.ts).getLast?, ∀ f ∈ (evs.map Prod.fst).head?,
      VideoTs.leB a f = true) →
    chainLeTs ((runAyRegWrites evs log).map AyRegChange.ts) = true := by
  intro evs
  induction evs with
  | nil =>
    intro log _ h2 _
    exact h2
  | cons ev evs ih =>
    obtain ⟨t, reg, val⟩ := ev
    intro log h1 h2 h3
    have hec := chainLeTs_tail t (evs.map Prod.fst) (by simpa using h1)
    show chainLeTs ((runAyRegWrites evs
      (log ++ [⟨t.vc, t.hc, reg, val⟩])).map AyRegChange.ts) = true
    apply ih _ hec.1
    · rw [List.map_append]
      show chainLeTs (log.map AyRegChange.ts ++ [t]) = true
      exact chainLeTs_append t _ h2 (fun a ha => h3 a ha t (by simp))
    · intro a ha f hf
      rw [List.map_append] at ha
      simp only [List.map_cons, List.map_nil, List.getLast?_concat,
        Option.mem_def, Option.some.injEq] at ha
      subst ha
      exact hec.2 f hf

lemma earLogOk_append (l : List VideoTsD) (x : VideoTsD)
    (h : earLogOkB l = true)
    (hx : VideoTs.normB x.ts = true)
    (hl : ∀ a ∈ (l.map VideoTsD.ts).getLast?, VideoTs.leB a x.ts = true) :
    earLogOkB (l ++ [x]) = true := by
  unfold earLogOkB at h ⊢
  rw [Bool.and_eq_true] at h ⊢
  rw [List.map_append]
  constructor
  · exact chainLeTs_append x.ts _ h.1 hl
  · rw [List.all_append]
    simp [h.2, hx]

lemma setEarIn_ok (st : EarInState) (earIn : Bool) (delta : Nat)
    (h : earLogOkB st.earInChanges = true)
    (ht : VideoTs.normB st.tsc = true) :
    earLogOkB (setEarIn earIn delta st).earInChanges = true := by
  unfold setEarIn
  by_cases hd : delta = 0
  · rw [if_pos hd]
    cases hlog : st.earInChanges with
    | nil =>
      simpa using (by rw [hlog] at h; exact h)
    | cons e rest =>
      rw [hlog] at h
      show earLogOkB (setLastData (boolToNat earIn) (e :: rest)) = true
      unfold earLogOkB at h ⊢
      rw [setLastData_map_ts]
      exact h
  · rw [if_neg hd]
    cases hlast : st.earInChanges.getLast? with
    | none =>
      have hnil : st.earInChanges = [] := List.getLast?_eq_none_iff.mp hlast
      show earLogOkB (st.earInChanges ++ [_]) = true
      rw [hnil]
      have hm := vtsAddTs_mono st.tsc delta ht (by omega)
      unfold earLogOkB
      simp only [List.nil_append, List.map_cons, List.map_nil, List.all_cons,
        List.all_nil, Bool.and_true]
      exact (by rw [show chainLeTs [VideoTsD.ts ⟨(vtsAddTs st.tsc delta).vc,
        (vtsAddTs st.tsc delta).hc, boolToNat earIn⟩] = true from rfl]
                exact (by simpa using hm.2))
    | some e =>
      have hmem : e ∈ st.earInChanges := List.mem_of_mem_getLast? hlast
      have hnorm : VideoTs.normB e.ts = true := by
        unfold earLogOkB at h
        rw [Bool.and_eq_true] at h
        have := h.2
        rw [List.all_eq_true] at this
        exact this (VideoTsD.ts e) (List.mem_map_of_mem _ hmem)
      have hm := vtsAddTs_mono e.ts delta hnorm (by omega)
      apply earLogOk_append _ _ h
      · exact hm.2
      · intro a ha
        rw [List.getLast?_map, hlast] at ha
        simp only [Option.map_some', Option.mem_def, Option.some.injEq] at ha
        subst ha
        exact vts_ltB_leB _ _ hm.1

lemma feedAux_ok (maxVc : Int) :
    ∀ (ds : List Nat) (v : VideoTs) (e : Nat) (log : List VideoTsD),
    (∀ d ∈ ds, 1 ≤ d) → earLogOkB log = true → VideoTs.normB v = true →
    (∀ a ∈ (log.map VideoTsD.ts).getLast?, VideoTs.leB a v = true) →
    earLogOkB (feedEarInAux maxVc ds v e log) = true := by
  intro ds
  induction ds with
  | nil =>
    intro v e log _ h _ _
    exact h
  | cons d ds ih =>
    intro v e log hds h hv hl
    have hm := vtsAddTs_mono v d hv (hds d (by simp))
    have hlog2 : earLogOkB (log ++
        [⟨(vtsAddTs v d).vc, (vtsAddTs v d).hc, e ^^^ 1⟩]) = true := by
      apply earLogOk_append _ _ h
      · exact hm.2
      · intro a ha
        exact vts_leB_trans a v _ (hl a ha) (vts_ltB_leB _ _ hm.1)
    rw [feedEarInAux]
    by_cases hstop : maxVc ≤ (vtsAddTs v d).vc
    · rw [if_pos hstop]
      exact hlog2
    · rw [if_neg hstop]
      apply ih _ _ _ (fun d2 hd2 => hds d2 (by simp [hd2])) hlog2 hm.2
      intro a ha
      rw [List.map_append] at ha
      simp only [List.map_cons, List.map_nil, List.getLast?_concat,
        Option.mem_def, Option.some.injEq] at ha
      subst ha
      exact vts_leB_refl _

/-- C8: within one frame every per-frame log is non-decreasing in VTs.
The border log (and, sharing the same change-conditional append, the
spec-modelled earmic-out log) built by a sequence of writes at
non-decreasing `tsc` values is sorted; the spec-modelled AY
register-change log likewise; and the ear-in log append paths
(`set_ear_in`, `feed_ear_in`) preserve sortedness (and normalization) of
the log, appending entries at or after the last one. -/
theorem frame_logs_monotonic :
    (∀ (events : List (VideoTs × Nat)) (lb0 : Nat),
      chainLeTs (events.map Prod.fst) = true →
      chainLeTs (((runChanges events (lb0, [])).2).map VideoTsD.ts) = true) ∧
    (∀ events : List (VideoTs × Nat × Nat),
      chainLeTs (events.map Prod.fst) = true →
      chainLeTs ((runAyRegWrites events []).map AyRegChange.ts) = true) ∧
    (∀ (st : EarInState) (earIn : Bool) (delta : Nat),
      earLogOkB st.earInChanges = true → VideoTs.normB st.tsc = true →
      earLogOkB (setEarIn earIn delta st).earInChanges = true) ∧
    (∀ (st : EarInState) (deltas : List Nat) (mft : Option Nat),
      (∀ d ∈ deltas, 1 ≤ d) → earLogOkB st.earInChanges = true →
      VideoTs.normB st.tsc = true →
      earLogOkB (feedEarIn deltas mft st).earInChanges = true) := by
  refine ⟨?_, ?_, setEarIn_ok, ?_⟩
  · intro events lb0 h1
    exact runChanges_mono events (lb0, []) h1 rfl (by simp)
  · intro events h1
    exact runAyRegWrites_mono events [] h1 rfl (by simp)
  · intro st deltas mft hds h ht
    unfold feedEarIn
    cases hlast : st.earInChanges.getLast? with
    | none =>
      have hnil : st.earInChanges = [] := List.getLast?_eq_none_iff.mp hlast
      simp only [hlast]
      apply feedAux_ok _ deltas st.tsc st.prevEarIn _ hds h ht
      rw [hnil]
      simp
    | some e =>
      have hmem : e ∈ st.earInChanges := List.mem_of_mem_getLast? hlast
      have hnorm : VideoTs.normB e.ts = true := by
        unfold earLogOkB at h
        rw [Bool.and_eq_true] at h
        have := h.2
        rw [List.all_eq_true] at this
        exact this (VideoTsD.ts e) (List.mem_map_of_mem _ hmem)
      simp only [hlast]
      apply feedAux_ok _ deltas (VideoTs.mk e.vc e.hc) e.data _ hds h hnorm
      intro a ha
      rw [List.getLast?_map, hlast] at ha
      simp only [Option.map_some', Option.mem_def, Option.some.injEq] at ha
      subst ha
      exact vts_leB_refl _

/-- C8 witness: two border writes at ascending timestamps produce a
sorted log; a three-delta ear-in feed extends a sorted log. -/
theorem frame_logs_monotonic_witness :
    (chainLeTs ([(⟨10, 0⟩, 1), (⟨20, 5⟩, 4)].map Prod.fst) = true ∧
      chainLeTs (((runChanges [(⟨10, 0⟩, 1), (⟨20, 5⟩, 4)] (7, [])).2).map
        VideoTsD.ts) = true) ∧
    ((∀ d ∈ [100, 224, 1], 1 ≤ d) ∧
      earLogOkB ([⟨3, 0, 1⟩] : List VideoTsD) = true ∧
      VideoTs.normB (VideoTs.mk 0 0) = true ∧
      earLogOkB (feedEarIn [100, 224, 1] (some 2)
        ⟨⟨0, 0⟩, [⟨3, 0, 1⟩], 0, 0⟩).earInChanges = true) :=
  ⟨⟨by decide,
    frame_logs_monotonic.1 [(⟨10, 0⟩, 1), (⟨20, 5⟩, 4)] 7 (by decide)⟩,
   ⟨by decide, by decide, by decide,
    frame_logs_monotonic.2.2.2 ⟨⟨0, 0⟩, [⟨3, 0, 1⟩], 0, 0⟩ [100, 224, 1]
      (some 2) (by decide) (by decide) (by decide)⟩⟩

end Spectrusty
